import Mathlib

/-!
Verification of the schema normalization and matching core of GovtDataBridge
(`src/GovtDataBridge/app.py`).

The embedding models the two core functions and the boundary-adjacent schema
builders:

* `normalize_name` — Python: `str(name).strip().lower().replace(" ", "").replace("_", "")`.
  Strings are modelled as their character lists.  `.strip()` is modelled as
  removal of leading and trailing whitespace (`Char.isWhitespace` covers the
  ASCII whitespace relevant here), `.lower()` as `Char.toLower` per character
  (ASCII case mapping, which is what the inputs of interest exercise), and the
  two single-character `.replace(c, "")` calls as one filter that drops every
  `' '` and `'_'` (removing all spaces and then all underscores equals removing
  every character that is a space or an underscore).
* `match_schemas` — the ordered-removal matcher: it iterates the *original*
  list `a` while erasing matched names from working copies of `a` and `b`;
  Python's `list.remove` removes the first occurrence, i.e. `List.erase`.
* `infer_schema_from_json_content` / `infer_schema_from_xml_content` — the
  format parsers (`json.loads`, `xml.etree.ElementTree.fromstring`) are
  external libraries; their outcome is modelled as an `Option` of a parse
  tree (`Option.none` = the decode-error branch), and the repository's own
  branching on that outcome is embedded faithfully.
-/

/-- Characters removed inside the name by
`.replace(" ", "").replace("_", "")`: keep a character iff it is neither a
space nor an underscore. -/
def keepChar (c : Char) : Bool := !(c == ' ' || c == '_')

/-- Python `str.strip()` on a character list: drop leading and trailing
whitespace. -/
def stripChars (l : List Char) : List Char :=
  ((l.dropWhile Char.isWhitespace).reverse.dropWhile Char.isWhitespace).reverse

/-- `normalize_name` from `app.py` on string input:
`name.strip().lower().replace(" ", "").replace("_", "")`. -/
def normalize_name (s : String) : String :=
  String.mk (((stripChars s.data).map Char.toLower).filter keepChar)

/-- A Python value that may be handed to `normalize_name`: either a string or
a non-string value (modelled by representative non-string constructors). -/
inductive PyValue where
  | str (s : String)
  | int (n : Int)
  | bool (b : Bool)
  | none

/-- Python `str(v)` on the modelled values. -/
def pyStr : PyValue → String
  | .str s => s
  | .int n => toString n
  | .bool b => if b then "True" else "False"
  | .none => "None"

/-- `normalize_name` from `app.py` including its `isinstance` coercion branch:
a non-string argument is first converted with `str(...)`. -/
def normalize_name_any (v : PyValue) : String :=
  match v with
  | .str s => normalize_name s
  | v => normalize_name (pyStr v)

/-- The dictionary returned by `match_schemas`.  The source's key `"matches"`
is rendered `matched` here because `matches` is a reserved word in Lean. -/
structure MatchResult where
  matched : List (String × String)
  unmatched_a : List String
  unmatched_b : List String
deriving DecidableEq

/-- The `for field_a in schema_a_fields` loop of `match_schemas`: the first
argument is the remaining part of the iterated original list, the other two
are the working copies `unmatched_a` and `unmatched_b`. -/
def matchLoop : List String → List String → List String →
    List (String × String) × List String × List String
  | [], ua, ub => ([], ua, ub)
  | x :: rest, ua, ub =>
    if x ∈ ub then
      let r := matchLoop rest (ua.erase x) (ub.erase x)
      ((x, x) :: r.1, r.2.1, r.2.2)
    else
      matchLoop rest ua ub

/-- `match_schemas` from `app.py`: both working copies start as copies of the
inputs, and the loop runs over the original `schema_a_fields`. -/
def match_schemas (schema_a_fields schema_b_fields : List String) : MatchResult :=
  let r := matchLoop schema_a_fields schema_a_fields schema_b_fields
  ⟨r.1, r.2.1, r.2.2⟩

/-- Splitting a character list at every comma, like Python `s.split(",")`. -/
def splitComma : List Char → List (List Char)
  | [] => [[]]
  | ',' :: rest => [] :: splitComma rest
  | c :: rest =>
    match splitComma rest with
    | [] => [[c]]
    | seg :: segs => (c :: seg) :: segs

/-- Modelled from the spec: the delimited-string schema builder (split a raw
string on commas, normalize each segment — normalization itself trims the
segment — and drop segments that normalize to the empty string).  This input
shape is described in the spec only; the repository source under `src/` ships
just the four format-specific builders. -/
def schema_from_delimited (s : String) : List String :=
  ((splitComma s.data).map (fun seg => normalize_name (String.mk seg))).filter
    (fun t => !(t == ""))

/-- A parsed JSON value, the outcome type of the external `json.loads`. -/
inductive JsonValue where
  | obj (fields : List (String × JsonValue))
  | arr (elems : List JsonValue)
  | str (s : String)
  | num (n : Int)
  | bool (b : Bool)
  | null

/-- `infer_schema_from_json_content` from `app.py`, over the outcome of the
external JSON decoder (`Option.none` is the `json.JSONDecodeError` branch):
keys of the first element of a non-empty list of objects, else keys of a
top-level object, else the empty schema. -/
def infer_schema_from_json (parsed : Option JsonValue) : List String :=
  match parsed with
  | Option.none => []
  | Option.some (JsonValue.arr (JsonValue.obj fields :: _)) =>
      fields.map (fun kv => normalize_name kv.1)
  | Option.some (JsonValue.arr _) => []
  | Option.some (JsonValue.obj fields) =>
      fields.map (fun kv => normalize_name kv.1)
  | Option.some _ => []

/-- An XML element: its tag and its child elements (text and attributes play
no role in schema inference). -/
inductive XmlElem where
  | node (tag : String) (children : List XmlElem)

/-- The tag of an XML element. -/
def XmlElem.tag : XmlElem → String
  | .node t _ => t

/-- The child elements directly under an XML element. -/
def XmlElem.children : XmlElem → List XmlElem
  | .node _ cs => cs

/-- Boolean lexicographic string comparison used for sorting (Python `sorted`
compares strings by code points, as does the order on `String`). -/
def strLe (a b : String) : Bool := decide (a ≤ b)

/-- `sorted(list(set([elem.tag for elem in root])))` from
`infer_schema_from_xml_content`: the distinct raw tag names of the children of
the root, sorted lexicographically. -/
def rawSortedTags (root : XmlElem) : List String :=
  ((root.children.map XmlElem.tag).dedup).mergeSort strLe

/-- `infer_schema_from_xml_content` from `app.py`, over the outcome of the
external XML parser (`Option.none` is the `ET.ParseError` branch): the sorted
distinct child tag names, each normalized afterwards. -/
def infer_schema_from_xml (parsed : Option XmlElem) : List String :=
  match parsed with
  | Option.none => []
  | Option.some root => (rawSortedTags root).map normalize_name

/-- `List.erase` is right-commutative, so folds of erasures are invariant
under permutations of the erased values. -/
instance : RightCommutative (List.erase (α := String)) :=
  ⟨fun l a b => List.erase_comm a b l⟩

lemma char_toNat_ofNat_of_lt {n : Nat} (h : n < 55296) : (Char.ofNat n).toNat = n := by
  rw [Char.ofNat, dif_pos (Or.inl h)]
  rfl

lemma toLower_toNat (c : Char) :
    (Char.toLower c).toNat =
      if 65 ≤ c.toNat ∧ c.toNat ≤ 90 then c.toNat + 32 else c.toNat := by
  rw [Char.toLower]
  by_cases h : 65 ≤ c.toNat ∧ c.toNat ≤ 90
  · rw [if_pos ⟨h.1, h.2⟩, if_pos h]
    exact char_toNat_ofNat_of_lt (by omega)
  · rw [if_neg, if_neg h]
    intro hc
    exact h ⟨hc.1, hc.2⟩

lemma toLower_eq_self (c : Char) (h : ¬(65 ≤ c.toNat ∧ c.toNat ≤ 90)) :
    Char.toLower c = c := by
  rw [Char.toLower, if_neg]
  intro hc
  exact h ⟨hc.1, hc.2⟩

lemma toLower_idem (c : Char) : Char.toLower (Char.toLower c) = Char.toLower c := by
  by_cases h : 65 ≤ c.toNat ∧ c.toNat ≤ 90
  · have h1 : (Char.toLower c).toNat = c.toNat + 32 := by rw [toLower_toNat, if_pos h]
    exact toLower_eq_self _ (by omega)
  · rw [toLower_eq_self c h, toLower_eq_self c h]

lemma char_ne_of_toNat_ne {c d : Char} (h : c.toNat ≠ d.toNat) : c ≠ d := by
  intro e
  exact h (congrArg Char.toNat e)

lemma keepChar_toLower (c : Char) : keepChar (Char.toLower c) = keepChar c := by
  by_cases h : 65 ≤ c.toNat ∧ c.toNat ≤ 90
  · have h1 : (Char.toLower c).toNat = c.toNat + 32 := by rw [toLower_toNat, if_pos h]
    have hspace : (' ' : Char).toNat = 32 := rfl
    have hunder : ('_' : Char).toNat = 95 := rfl
    have hs1 : Char.toLower c ≠ ' ' := char_ne_of_toNat_ne (by omega)
    have hu1 : Char.toLower c ≠ '_' := char_ne_of_toNat_ne (by omega)
    have hs2 : c ≠ ' ' := char_ne_of_toNat_ne (by omega)
    have hu2 : c ≠ '_' := char_ne_of_toNat_ne (by omega)
    rw [keepChar, keepChar, beq_eq_false_iff_ne.mpr hs1, beq_eq_false_iff_ne.mpr hu1,
      beq_eq_false_iff_ne.mpr hs2, beq_eq_false_iff_ne.mpr hu2]
  · rw [toLower_eq_self c h]

lemma filter_map_toLower (l : List Char) :
    (l.map Char.toLower).filter keepChar = (l.filter keepChar).map Char.toLower := by
  induction l with
  | nil => rfl
  | cons c t ih =>
    rw [List.map_cons, List.filter_cons, List.filter_cons, keepChar_toLower c]
    by_cases h : keepChar c
    · rw [if_pos h, if_pos h, List.map_cons, ih]
    · rw [if_neg h, if_neg h, ih]

lemma map_toLower_idem (l : List Char) :
    (l.map Char.toLower).map Char.toLower = l.map Char.toLower := by
  induction l with
  | nil => rfl
  | cons c t ih => rw [List.map_cons, List.map_cons, toLower_idem, ih]

lemma filter_keepChar_idem (l : List Char) :
    (l.filter keepChar).filter keepChar = l.filter keepChar := by
  induction l with
  | nil => rfl
  | cons c t ih =>
    rw [List.filter_cons]
    by_cases h : keepChar c
    · rw [if_pos h, List.filter_cons, if_pos h, ih]
    · rw [if_neg h, ih]

lemma normalize_name_data (s : String) :
    (normalize_name s).data = ((stripChars s.data).map Char.toLower).filter keepChar := rfl

lemma norm_chars_idem (S : List Char) :
    (((S.map Char.toLower).filter keepChar).map Char.toLower).filter keepChar =
      (S.map Char.toLower).filter keepChar := by
  calc (((S.map Char.toLower).filter keepChar).map Char.toLower).filter keepChar
      = (((S.map Char.toLower).filter keepChar).filter keepChar).map Char.toLower :=
        filter_map_toLower _
    _ = ((S.map Char.toLower).filter keepChar).map Char.toLower := by
        rw [filter_keepChar_idem]
    _ = ((S.map Char.toLower).map Char.toLower).filter keepChar :=
        (filter_map_toLower _).symm
    _ = (S.map Char.toLower).filter keepChar := by rw [map_toLower_idem]

lemma normalize_of_trimmed_normal (t : String) (u : List Char)
    (ht : t.data = ((stripChars u).map Char.toLower).filter keepChar)
    (hstrip : stripChars t.data = t.data) :
    normalize_name t = t := by
  apply String.ext
  rw [normalize_name_data, hstrip, ht]
  exact norm_chars_idem (stripChars u)

lemma matchLoop_nil (ua ub : List String) : matchLoop [] ua ub = ([], ua, ub) := rfl

lemma matchLoop_cons_mem (x : String) (rest ua ub : List String) (hx : x ∈ ub) :
    matchLoop (x :: rest) ua ub =
      ((x, x) :: (matchLoop rest (ua.erase x) (ub.erase x)).1,
       (matchLoop rest (ua.erase x) (ub.erase x)).2.1,
       (matchLoop rest (ua.erase x) (ub.erase x)).2.2) := by
  rw [matchLoop, if_pos hx]

lemma matchLoop_cons_not_mem (x : String) (rest ua ub : List String) (hx : x ∉ ub) :
    matchLoop (x :: rest) ua ub = matchLoop rest ua ub := by
  rw [matchLoop, if_neg hx]

lemma matchLoop_matches_diag (iter : List String) :
    ∀ ua ub p, p ∈ (matchLoop iter ua ub).1 → p.1 = p.2 ∧ p.1 ∈ iter ∧ p.1 ∈ ub := by
  induction iter with
  | nil =>
    intro ua ub p hp
    simp [matchLoop_nil] at hp
  | cons x rest ih =>
    intro ua ub p hp
    by_cases hx : x ∈ ub
    · rw [matchLoop_cons_mem x rest ua ub hx] at hp
      rcases List.mem_cons.mp hp with he | hm
      · subst he
        exact ⟨rfl, List.mem_cons_self x rest, hx⟩
      · obtain ⟨h1, h2, h3⟩ := ih (ua.erase x) (ub.erase x) p hm
        exact ⟨h1, List.mem_cons_of_mem x h2, List.mem_of_mem_erase h3⟩
    · rw [matchLoop_cons_not_mem x rest ua ub hx] at hp
      obtain ⟨h1, h2, h3⟩ := ih ua ub p hp
      exact ⟨h1, List.mem_cons_of_mem x h2, h3⟩

lemma matchLoop_count_matched (y : String) (iter : List String) :
    ∀ ua ub, ((matchLoop iter ua ub).1.map Prod.fst).count y =
      min (iter.count y) (ub.count y) := by
  induction iter with
  | nil =>
    intro ua ub
    simp [matchLoop_nil]
  | cons x rest ih =>
    intro ua ub
    by_cases hx : x ∈ ub
    · have hub : 0 < ub.count x := List.count_pos_iff.mpr hx
      rw [matchLoop_cons_mem x rest ua ub hx]
      have hrec := ih (ua.erase x) (ub.erase x)
      by_cases hxy : y = x
      · subst hxy
        rw [List.count_erase_self] at hrec
        show List.count y (y :: ((matchLoop rest (ua.erase y) (ub.erase y)).1.map Prod.fst)) =
          min (List.count y (y :: rest)) (List.count y ub)
        rw [List.count_cons_self, List.count_cons_self, hrec]
        omega
      · rw [List.count_erase_of_ne hxy] at hrec
        show List.count y (x :: ((matchLoop rest (ua.erase x) (ub.erase x)).1.map Prod.fst)) =
          min (List.count y (x :: rest)) (List.count y ub)
        rw [List.count_cons_of_ne hxy, List.count_cons_of_ne hxy, hrec]
    · have hub : ub.count x = 0 := List.count_eq_zero.mpr hx
      rw [matchLoop_cons_not_mem x rest ua ub hx, ih ua ub]
      by_cases hxy : y = x
      · subst hxy
        rw [List.count_cons_self]
        omega
      · rw [List.count_cons_of_ne hxy]

lemma matchLoop_fst_cons_mem {x : String} {rest ua ub : List String} (hx : x ∈ ub) :
    (matchLoop (x :: rest) ua ub).1 =
      (x, x) :: (matchLoop rest (ua.erase x) (ub.erase x)).1 := by
  rw [matchLoop_cons_mem x rest ua ub hx]

lemma matchLoop_mapfst_cons_mem {x : String} {rest ua ub : List String} (hx : x ∈ ub) :
    (matchLoop (x :: rest) ua ub).1.map Prod.fst =
      x :: (matchLoop rest (ua.erase x) (ub.erase x)).1.map Prod.fst := by
  rw [matchLoop_fst_cons_mem hx, List.map_cons]

lemma matchLoop_ua_cons_mem {x : String} {rest ua ub : List String} (hx : x ∈ ub) :
    (matchLoop (x :: rest) ua ub).2.1 =
      (matchLoop rest (ua.erase x) (ub.erase x)).2.1 := by
  rw [matchLoop_cons_mem x rest ua ub hx]

lemma matchLoop_ub_cons_mem {x : String} {rest ua ub : List String} (hx : x ∈ ub) :
    (matchLoop (x :: rest) ua ub).2.2 =
      (matchLoop rest (ua.erase x) (ub.erase x)).2.2 := by
  rw [matchLoop_cons_mem x rest ua ub hx]

lemma inv_head_mem {x : String} {rest ua : List String}
    (hinv : ∀ z, (x :: rest).count z ≤ ua.count z) : x ∈ ua := by
  have h1 := hinv x
  rw [List.count_cons_self] at h1
  exact List.count_pos_iff.mp (by omega)

lemma inv_tail_erase {x : String} {rest ua : List String}
    (hinv : ∀ z, (x :: rest).count z ≤ ua.count z) :
    ∀ z, rest.count z ≤ (ua.erase x).count z := by
  intro z
  have h1 := hinv z
  by_cases hzx : z = x
  · subst hzx
    rw [List.count_cons_self] at h1
    rw [List.count_erase_self]
    omega
  · rw [List.count_cons_of_ne hzx] at h1
    rw [List.count_erase_of_ne hzx]
    exact h1

lemma inv_tail {x : String} {rest ua : List String}
    (hinv : ∀ z, (x :: rest).count z ≤ ua.count z) :
    ∀ z, rest.count z ≤ ua.count z := by
  intro z
  have h1 := hinv z
  by_cases hzx : z = x
  · subst hzx
    rw [List.count_cons_self] at h1
    omega
  · rw [List.count_cons_of_ne hzx] at h1
    exact h1

lemma matchLoop_len (iter : List String) :
    ∀ ua ub, (∀ z, iter.count z ≤ ua.count z) →
      (matchLoop iter ua ub).1.length + (matchLoop iter ua ub).2.1.length = ua.length := by
  induction iter with
  | nil =>
    intro ua ub _
    rw [matchLoop_nil]
    simp
  | cons x rest ih =>
    intro ua ub hinv
    have hxa : x ∈ ua := inv_head_mem hinv
    by_cases hx : x ∈ ub
    · have hrec := ih (ua.erase x) (ub.erase x) (inv_tail_erase hinv)
      have hlen : (ua.erase x).length = ua.length - 1 := List.length_erase_of_mem hxa
      have hpos : 0 < ua.length := List.length_pos_of_mem hxa
      rw [matchLoop_fst_cons_mem hx, matchLoop_ua_cons_mem hx, List.length_cons]
      omega
    · rw [matchLoop_cons_not_mem x rest ua ub hx]
      exact ih ua ub (inv_tail hinv)

lemma matchLoop_count_partition (y : String) (iter : List String) :
    ∀ ua ub, (∀ z, iter.count z ≤ ua.count z) →
      ((matchLoop iter ua ub).1.map Prod.fst).count y +
        (matchLoop iter ua ub).2.1.count y = ua.count y := by
  induction iter with
  | nil =>
    intro ua ub _
    rw [matchLoop_nil]
    simp
  | cons x rest ih =>
    intro ua ub hinv
    have hxa : x ∈ ua := inv_head_mem hinv
    by_cases hx : x ∈ ub
    · have hrec := ih (ua.erase x) (ub.erase x) (inv_tail_erase hinv)
      rw [matchLoop_mapfst_cons_mem hx, matchLoop_ua_cons_mem hx]
      by_cases hxy : y = x
      · subst hxy
        rw [List.count_erase_self] at hrec
        have hya : 0 < ua.count y := List.count_pos_iff.mpr hxa
        rw [List.count_cons_self]
        omega
      · rw [List.count_erase_of_ne hxy] at hrec
        rw [List.count_cons_of_ne hxy]
        exact hrec
    · rw [matchLoop_cons_not_mem x rest ua ub hx]
      exact ih ua ub (inv_tail hinv)

lemma matchLoop_ua_foldl (iter : List String) :
    ∀ ua ub, (matchLoop iter ua ub).2.1 =
      List.foldl List.erase ua ((matchLoop iter ua ub).1.map Prod.fst) := by
  induction iter with
  | nil =>
    intro ua ub
    rw [matchLoop_nil]
    rfl
  | cons x rest ih =>
    intro ua ub
    by_cases hx : x ∈ ub
    · rw [matchLoop_ua_cons_mem hx, matchLoop_mapfst_cons_mem hx, List.foldl_cons]
      exact ih (ua.erase x) (ub.erase x)
    · rw [matchLoop_cons_not_mem x rest ua ub hx]
      exact ih ua ub

lemma matchLoop_ub_foldl (iter : List String) :
    ∀ ua ub, (matchLoop iter ua ub).2.2 =
      List.foldl List.erase ub ((matchLoop iter ua ub).1.map Prod.fst) := by
  induction iter with
  | nil =>
    intro ua ub
    rw [matchLoop_nil]
    rfl
  | cons x rest ih =>
    intro ua ub
    by_cases hx : x ∈ ub
    · rw [matchLoop_ub_cons_mem hx, matchLoop_mapfst_cons_mem hx, List.foldl_cons]
      exact ih (ua.erase x) (ub.erase x)
    · rw [matchLoop_cons_not_mem x rest ua ub hx]
      exact ih ua ub

lemma match_fst_perm (a b : List String) :
    List.Perm ((match_schemas a b).matched.map Prod.fst)
      ((match_schemas b a).matched.map Prod.fst) := by
  rw [List.perm_iff_count]
  intro y
  show ((matchLoop a a b).1.map Prod.fst).count y = ((matchLoop b b a).1.map Prod.fst).count y
  rw [matchLoop_count_matched y a a b, matchLoop_count_matched y b b a]
  exact Nat.min_comm _ _

lemma match_unmatched_symm (a b : List String) :
    (match_schemas a b).unmatched_a = (match_schemas b a).unmatched_b := by
  show (matchLoop a a b).2.1 = (matchLoop b b a).2.2
  rw [matchLoop_ua_foldl a a b, matchLoop_ub_foldl b b a]
  exact (match_fst_perm a b).foldl_eq a

lemma mem_matched_mono (a b : List String) (p : String × String)
    (hp : p ∈ (match_schemas a b).matched) : p ∈ (match_schemas b a).matched := by
  obtain ⟨hdiag, hin_a, hin_b⟩ := matchLoop_matches_diag a a b p hp
  have h1 : p.1 ∈ (match_schemas a b).matched.map Prod.fst :=
    List.mem_map_of_mem Prod.fst hp
  have h2 : 0 < ((match_schemas a b).matched.map Prod.fst).count p.1 :=
    List.count_pos_iff.mpr h1
  have h3 : ((match_schemas b a).matched.map Prod.fst).count p.1 =
      ((match_schemas a b).matched.map Prod.fst).count p.1 := by
    show ((matchLoop b b a).1.map Prod.fst).count p.1 =
      ((matchLoop a a b).1.map Prod.fst).count p.1
    rw [matchLoop_count_matched, matchLoop_count_matched]
    exact Nat.min_comm _ _
  have h4 : p.1 ∈ (match_schemas b a).matched.map Prod.fst :=
    List.count_pos_iff.mp (by omega)
  obtain ⟨q, hq, hq1⟩ := List.mem_map.mp h4
  have hqdiag := (matchLoop_matches_diag b b a q hq).1
  have hq2 : q = p := by
    obtain ⟨q1, q2⟩ := q
    obtain ⟨p1, p2⟩ := p
    simp only at hq1 hqdiag hdiag
    rw [← hqdiag, hq1, hdiag]
  exact hq2 ▸ hq

lemma match_matched_len_symm (a b : List String) :
    (match_schemas a b).matched.length = (match_schemas b a).matched.length := by
  have h := (match_fst_perm a b).length_eq
  rw [List.length_map, List.length_map] at h
  exact h


lemma strLe_trans : ∀ (a b c : String), strLe a b → strLe b c → strLe a c := by
  intro a b c h1 h2
  simp only [strLe, decide_eq_true_eq] at h1 h2 ⊢
  exact le_trans h1 h2

lemma strLe_total : ∀ (a b : String), strLe a b || strLe b a := by
  intro a b
  simp only [strLe]
  rcases le_total a b with h | h
  · simp [h]
  · simp [h]

/-- C1: the spec's concrete scenario.  The raw strings `"CitizenID, Full Name,
DOB"` and `"citizen_id,dob,address"` normalize to the schemas
`["citizenid", "fullname", "dob"]` and `["citizenid", "dob", "address"]`, and
the matcher matches exactly the names `"citizenid"` and `"dob"` (each match
entry being that name as a self-pair), leaving `unmatched_a = ["fullname"]`
and `unmatched_b = ["address"]`. -/
theorem concrete_scenario_match :
    schema_from_delimited "CitizenID, Full Name, DOB" = ["citizenid", "fullname", "dob"] ∧
    schema_from_delimited "citizen_id,dob,address" = ["citizenid", "dob", "address"] ∧
    match_schemas ["citizenid", "fullname", "dob"] ["citizenid", "dob", "address"] =
      ⟨[("citizenid", "citizenid"), ("dob", "dob")], ["fullname"], ["address"]⟩ ∧
    (match_schemas ["citizenid", "fullname", "dob"]
        ["citizenid", "dob", "address"]).matched.map Prod.fst = ["citizenid", "dob"] :=
  ⟨by decide, by decide, by decide, by decide⟩

/-- C2: every element of the matched list of `match_schemas a b` is a 2-tuple
whose components are equal, and that common name occurs in both `a` and `b`;
the list never contains bare (un-paired) names. -/
theorem matched_entries_diagonal (a b : List String) (p : String × String)
    (hp : p ∈ (match_schemas a b).matched) : p.1 = p.2 ∧ p.1 ∈ a ∧ p.1 ∈ b :=
  matchLoop_matches_diag a a b p hp

/-- Witness for C2 at a concrete input. -/
theorem matched_entries_diagonal_witness :
    (("id", "id") ∈ (match_schemas ["id"] ["id"]).matched) ∧
    (("id", "id").1 = ("id", "id").2 ∧ ("id", "id").1 ∈ ["id"] ∧ ("id", "id").1 ∈ ["id"]) :=
  ⟨by decide, matched_entries_diagonal ["id"] ["id"] ("id", "id") (by decide)⟩

/-- C3 counterexample: normalization is not idempotent on every string.  On
`"_\ta"` the first pass removes the underscore and exposes a leading tab,
which only the second pass strips: `normalize("_\ta") = "\ta"` but
`normalize(normalize("_\ta")) = "a"`. -/
theorem normalize_not_idempotent_cx :
    normalize_name (normalize_name "_\ta") ≠ normalize_name "_\ta" := by decide

/-- C3 (amended): normalization is idempotent on every string whose normalized
form carries no leading or trailing whitespace — in particular on every string
in which spaces are the only whitespace.  (Removing underscores and spaces can
expose leading/trailing tabs, carriage returns or newlines, which a second
pass would strip; that is the only failure mode.) -/
theorem normalize_idempotent_of_trimmed (x : String)
    (h : stripChars (normalize_name x).data = (normalize_name x).data) :
    normalize_name (normalize_name x) = normalize_name x :=
  normalize_of_trimmed_normal (normalize_name x) x.data rfl h

/-- Witness for the amended C3 at a concrete input. -/
theorem normalize_idempotent_of_trimmed_witness :
    (stripChars (normalize_name "Full_Name").data = (normalize_name "Full_Name").data) ∧
    normalize_name (normalize_name "Full_Name") = normalize_name "Full_Name" :=
  ⟨by decide, normalize_idempotent_of_trimmed "Full_Name" (by decide)⟩

/-- C4: matching is commutative on sets: `match_schemas a b` and
`match_schemas b a` have the same set of match entries, and
`(match_schemas a b).unmatched_a` equals `(match_schemas b a).unmatched_b`
(even as ordered lists). -/
theorem match_commutative_sets (a b : List String) :
    (∀ p, p ∈ (match_schemas a b).matched ↔ p ∈ (match_schemas b a).matched) ∧
    (match_schemas a b).unmatched_a = (match_schemas b a).unmatched_b :=
  ⟨fun p => ⟨mem_matched_mono a b p, mem_matched_mono b a p⟩, match_unmatched_symm a b⟩

/-- C5: matching is complete: per name, the number of match entries for that
name plus its occurrences in `unmatched_a` equals its occurrences in `a`, so
the number of match entries plus the length of `unmatched_a` equals the length
of `a`, and symmetrically the number of match entries plus the length of
`unmatched_b` equals the length of `b`. -/
theorem match_complete (a b : List String) :
    (∀ y, ((match_schemas a b).matched.map Prod.fst).count y +
        (match_schemas a b).unmatched_a.count y = a.count y) ∧
    (match_schemas a b).matched.length + (match_schemas a b).unmatched_a.length = a.length ∧
    (match_schemas a b).matched.length + (match_schemas a b).unmatched_b.length = b.length := by
  refine ⟨fun y => matchLoop_count_partition y a a b (fun z => Nat.le_refl _),
    matchLoop_len a a b (fun z => Nat.le_refl _), ?_⟩
  have h1 := matchLoop_len b b a (fun z => Nat.le_refl _)
  have h2 := match_matched_len_symm a b
  have h3 := match_unmatched_symm b a
  rw [h2, ← h3]
  exact h1

/-- C6: when the JSON decoder reports a syntax error the inferrer returns the
empty schema instead of raising, and matching that empty schema as `a` against
`b = ["id", "name"]` yields no matches, `unmatched_a = []` and
`unmatched_b = ["id", "name"]`. -/
theorem invalid_json_empty_schema (parsed : Option JsonValue)
    (h : parsed = Option.none) :
    infer_schema_from_json parsed = [] ∧
    match_schemas (infer_schema_from_json parsed) ["id", "name"] =
      ⟨[], [], ["id", "name"]⟩ := by
  subst h
  exact ⟨rfl, rfl⟩

/-- Witness for C6 at the concrete failed-parse outcome. -/
theorem invalid_json_empty_schema_witness :
    ((Option.none : Option JsonValue) = Option.none) ∧
    (infer_schema_from_json (Option.none : Option JsonValue) = [] ∧
      match_schemas (infer_schema_from_json (Option.none : Option JsonValue)) ["id", "name"] =
        ⟨[], [], ["id", "name"]⟩) :=
  ⟨rfl, invalid_json_empty_schema Option.none rfl⟩

/-- C7: the empty-input boundary of the matcher: `match_schemas [] []` has all
three collections empty, and `match_schemas ["id"] []` has
`unmatched_a = ["id"]` with the other two collections empty. -/
theorem match_empty_boundary :
    match_schemas [] [] = ⟨[], [], []⟩ ∧
    match_schemas ["id"] [] = ⟨[], ["id"], []⟩ :=
  ⟨rfl, by decide⟩

/-- C8: the normalizer is total and deterministic on every modelled Python
value: it is a function that always returns (there is no error branch in the
source), and a non-string input is coerced to its string representation and
then normalized exactly like that string, never rejected. -/
theorem normalizer_total_on_values (v : PyValue) :
    normalize_name_any v = normalize_name (pyStr v) := by
  cases v <;> rfl

/-- C9: case and format insensitivity of the normalizer on the spec's
representative inputs under the space/underscore-stripping policy. -/
theorem normalize_case_format_insensitive :
    normalize_name "Full Name" = normalize_name "FULLNAME" ∧
    normalize_name "FULLNAME" = normalize_name "full_name" :=
  ⟨by decide, by decide⟩

/-- C10: for every well-formed XML document the inferred schema is the map of
`normalize_name` over the distinct raw tag names of the elements directly
under the root, taken in the order that sorts the raw tag names
lexicographically (sorting happens before normalization): the raw tag list is
duplicate-free, sorted, and carries exactly the tags of the root's children. -/
theorem xml_schema_rawsorted_then_normalized (root : XmlElem) :
    infer_schema_from_xml (Option.some root) = (rawSortedTags root).map normalize_name ∧
    (rawSortedTags root).Nodup ∧
    List.Pairwise (fun s t : String => s ≤ t) (rawSortedTags root) ∧
    (∀ t, t ∈ rawSortedTags root ↔ t ∈ root.children.map XmlElem.tag) := by
  refine ⟨rfl, ?_, ?_, ?_⟩
  · exact (List.mergeSort_perm ((root.children.map XmlElem.tag).dedup) strLe).symm.nodup
      (List.nodup_dedup _)
  · have hs := List.sorted_mergeSort strLe_trans strLe_total
      ((root.children.map XmlElem.tag).dedup)
    exact hs.imp (fun hab => by simpa [strLe, decide_eq_true_eq] using hab)
  · intro t
    show t ∈ ((root.children.map XmlElem.tag).dedup).mergeSort strLe ↔ _
    rw [List.mem_mergeSort, List.mem_dedup]
